import Mathlib

/-
Verification development for the web-research-assistant repository
(agents.py).  The in-repo logic embedded here:

* visit_webpage: HTTP GET, raise_for_status, markdownify, .strip(),
  re.sub of three-or-more newlines to exactly two (lines 44-53);
* format_agent_response (lines 56-81);
* the search-history update and display (lines 131-135, 152-155);
* the URL extraction regex re.findall (line 169).

Strings are embedded as lists of characters (Str).  The external
collaborators (the requests library, markdownify) are abstracted: the
outcome of the HTTP GET is a FetchOutcome value and the markdown
conversion is an arbitrary function parameter, so theorems quantify
over every possible behaviour of those libraries.
-/

abbrev Str := List Char

/-- Decides whether the second list begins with the first list. -/
def startsWith : Str → Str → Bool
  | [], _ => true
  | _ :: _, [] => false
  | p :: ps, c :: cs => if p = c then startsWith ps cs else false

/-- Decides whether pat occurs as a contiguous substring of the second list. -/
def containsSub (pat : Str) : Str → Bool
  | [] => pat.isEmpty
  | c :: rest => startsWith pat (c :: rest) || containsSub pat rest

/-- The ASCII whitespace characters removed by the Python str.strip()
call with no arguments (the further Unicode space characters Python
also strips play no role in any claim). -/
def isPySpace (c : Char) : Bool :=
  c = ' ' || c = '\t' || c = '\n' || c = '\r' || c = '\x0b' || c = '\x0c'

/-- Python str.strip(): remove leading and trailing whitespace. -/
def pyStrip (l : Str) : Str :=
  ((l.dropWhile isPySpace).reverse.dropWhile isPySpace).reverse

/-- The replacement emitted for a pending run of k newline characters,
as performed by re.sub of three-or-more newlines to two: a run of at
least 3 becomes exactly 2 newlines, shorter runs are kept. -/
def emitNewlines (k : Nat) : Str :=
  if 3 ≤ k then ['\n', '\n'] else List.replicate k '\n'

/-- Scanner realizing the Python re.sub call of agents.py line 48: k
counts the newline run read so far; each maximal run of three or more
newlines is replaced by exactly two (the regex quantifier is greedy,
so it always consumes a maximal run). -/
def collapseGo : Nat → Str → Str
  | k, [] => emitNewlines k
  | k, c :: rest =>
    if c = '\n' then collapseGo (k + 1) rest
    else emitNewlines k ++ c :: collapseGo 0 rest

/-- re.sub of three-or-more newlines to exactly two, agents.py line 48. -/
def collapseNewlines (l : Str) : Str := collapseGo 0 l

/-- Outcome of the requests.get plus raise_for_status pair in
visit_webpage.  success means the GET returned with a 2xx status and
the given body text; requestError is any RequestException (network
failure, or the HTTPError raised by raise_for_status on a non-2xx status),
carrying str(e); otherError is any other exception, carrying str(e). -/
inductive FetchOutcome where
  | success (body : Str)
  | requestError (msg : Str)
  | otherError (msg : Str)

def errFetch : Str := "Error fetching the webpage: ".data

def errFetchMsg : Str := "Error fetching the webpage".data

def errUnexpected : Str := "An unexpected error occurred: ".data

def errUnexpectedMsg : Str := "An unexpected error occurred:".data

/-- visit_webpage, agents.py lines 32-53.  The markdown conversion md
(the external markdownify library) is a parameter; the function is
total, modelling that every exception is caught and a string returned. -/
def visit_webpage (md : Str → Str) : FetchOutcome → Str
  | .success body => collapseNewlines (pyStrip (md body))
  | .requestError msg => errFetch ++ msg
  | .otherError msg => errUnexpected ++ msg

/-- A Python value as handled by format_agent_response: a string, an
integer, or a dict.  Dicts are embedded as association lists in
insertion order; Python dict keys are unique, and the keys occurring
in the program are strings. -/
inductive PyVal where
  | pstr (s : Str)
  | pint (n : Int)
  | pdict (m : List (Str × PyVal))

/-- Decimal digits of n, with enough fuel (fuel recursion keeps the
definition structural so that concrete values reduce). -/
def natDigitsAux : Nat → Nat → Str
  | 0, _ => []
  | fuel + 1, n =>
    if n < 10 then [Char.ofNat (48 + n)]
    else natDigitsAux fuel (n / 10) ++ [Char.ofNat (48 + n % 10)]

/-- Python str() of an integer. -/
def intStr (n : Int) : Str :=
  if n < 0 then '-' :: natDigitsAux (n.natAbs + 1) n.natAbs
  else natDigitsAux (n.toNat + 1) n.toNat

/-- The single-quote character used by the Python repr of strings. -/
def squote : Char := Char.ofNat 39

mutual

/-- Python repr() of a value (used by str() on dict entries).  The
escaping repr applies to special characters inside strings is not
modelled; no claim depends on it. -/
def pyRepr : PyVal → Str
  | .pstr s => squote :: s ++ [squote]
  | .pint n => intStr n
  | .pdict m => Char.ofNat 123 :: pyReprEntries m ++ [Char.ofNat 125]

/-- The comma-separated key: value items of the repr of a dict. -/
def pyReprEntries : List (Str × PyVal) → Str
  | [] => []
  | [(k, v)] => squote :: k ++ squote :: ':' :: ' ' :: pyRepr v
  | (k, v) :: kv :: rest =>
    squote :: k ++ squote :: ':' :: ' ' :: pyRepr v
      ++ ',' :: ' ' :: pyReprEntries (kv :: rest)

end

/-- Python str() of a value. -/
def pyStr : PyVal → Str
  | .pstr s => s
  | .pint n => intStr n
  | .pdict m => pyRepr (.pdict m)

/-- Python str.title() restricted to ASCII: the first alphabetic
character of every alphabetic run is uppercased, the following ones
lowercased, and every other character is kept and ends the run. -/
def pyTitleGo : Bool → Str → Str
  | _, [] => []
  | prevAlpha, c :: rest =>
    (if c.isAlpha then (if prevAlpha then c.toLower else c.toUpper) else c)
      :: pyTitleGo c.isAlpha rest

/-- Python str.title(), used on dict keys in the generic dump branch. -/
def pyTitle (s : Str) : Str := pyTitleGo false s

/-- Dict read: both the Python test of key membership and the
subscript access are realized through this lookup (Python dict keys
are unique, so first-match lookup is exact). -/
def dictGet : List (Str × PyVal) → Str → Option PyVal
  | [], _ => none
  | (k, v) :: rest, key => if k = key then some v else dictGet rest key

def keyThoughts : Str := "thoughts".data

def keyObservations : Str := "observations".data

def keyAnswer : Str := "answer".data

def hdrThoughts : Str := "## Thought Process".data

def hdrObservations : Str := "## Observations".data

def hdrAnswer : Str := "## Answer".data

def hdrResults : Str := "## Results".data

def hashesSpace : Str := "### ".data

def sepNlNl : Str := "\n\n".data

/-- The two formatted_parts entries contributed by one recognized key:
the header and then the raw dict value (agents.py lines 61-71). -/
def optSection (header : Str) : Option PyVal → List PyVal
  | some v => [.pstr header, v]
  | none => []

/-- The two formatted_parts entries contributed by one dict entry in
the generic dump branch (agents.py lines 75-77). -/
def dumpEntries : List (Str × PyVal) → List PyVal
  | [] => []
  | (k, v) :: rest =>
    .pstr (hashesSpace ++ pyTitle k) :: .pstr (pyStr v) :: dumpEntries rest

/-- Checks that every part is a string, as Python str.join requires;
a non-string part makes join raise TypeError, embedded as none. -/
def asStrings : List PyVal → Option (List Str)
  | [] => some []
  | .pstr s :: rest => (asStrings rest).map (fun l => s :: l)
  | _ :: _ => none

/-- Concatenation of the parts with the separator between consecutive
parts, as performed by Python str.join. -/
def joinStrs (sep : Str) : List Str → Str
  | [] => []
  | [s] => s
  | s :: r :: rest => s ++ sep ++ joinStrs sep (r :: rest)

/-- Python sep.join(parts): none when some part is not a string
(Python raises TypeError there). -/
def pyJoin (sep : Str) (parts : List PyVal) : Option Str :=
  (asStrings parts).map (joinStrs sep)

/-- format_agent_response, agents.py lines 56-81.  The result is none
exactly when the Python original raises (join applied to a list with
a non-string member). -/
def format_agent_response (response : PyVal) : Option Str :=
  match response with
  | .pdict m =>
    let parts :=
      optSection hdrThoughts (dictGet m keyThoughts) ++
      optSection hdrObservations (dictGet m keyObservations) ++
      optSection hdrAnswer (dictGet m keyAnswer)
    let parts :=
      if parts.isEmpty then .pstr hdrResults :: dumpEntries m else parts
    pyJoin sepNlNl parts
  | v => some (pyStr v)

/-- The two joined section strings contributed by one recognized key,
used to state how format_agent_response renders a dict. -/
def secStrs (header : Str) : Option Str → List Str
  | some t => [header, t]
  | none => []

/-- The section strings of the generic dump branch, one title-cased
header and one stringified value per dict entry, in dict order. -/
def dumpStrs : List (Str × PyVal) → List Str
  | [] => []
  | (k, v) :: rest => (hashesSpace ++ pyTitle k) :: pyStr v :: dumpStrs rest

/-- Is the value a Python dict (mapping)? -/
def isDict : PyVal → Bool
  | .pdict _ => true
  | _ => false

/-- One submission of a query (agents.py lines 152-155): the query is
appended to st.session_state.search_history only when it is not
already a member. -/
def submitQuery (hist : List Str) (q : Str) : List Str :=
  if q ∈ hist then hist else hist ++ [q]

/-- The history reached from the initial empty session history
(agents.py lines 131-132) by a sequence of submissions. -/
def runQueries (qs : List Str) : List Str :=
  qs.foldl submitQuery []

/-- The displayed part of the history, Python slice hist[-5:]
(agents.py line 134): the most recent five entries. -/
def lastFive (l : List Str) : List Str :=
  l.drop (l.length - 5)

/-- Number of occurrences of a query in the history list. -/
def countOcc (q : Str) : List Str → Nat
  | [] => 0
  | x :: rest => (if x = q then 1 else 0) + countOcc q rest

/-- The character class of the URL regex of agents.py line 169: one of
[a-zA-Z], [0-9], the range from the dollar sign (0x24) to the
underscore (0x5F) written [$-_@.&+] (the @ . & + are inside that
range, which also holds the digits, the uppercase letters, the colon,
the slash and the percent sign), or one of the six characters of
[!*\\(\\),].  The remaining regex alternative, a percent sign with
two hex digits, is subsumed: the percent sign already matches the
0x24-0x5F range, which the engine tries first and which never has to
be backtracked because no pattern follows the repetition. -/
def isUrlChar (c : Char) : Bool :=
  (97 ≤ c.toNat && c.toNat ≤ 122) || (65 ≤ c.toNat && c.toNat ≤ 90) ||
  (48 ≤ c.toNat && c.toNat ≤ 57) ||
  (36 ≤ c.toNat && c.toNat ≤ 95) ||
  c = '!' || c = '*' || c = '\\' || c = '(' || c = ')' || c = ','

/-- One attempted regex match at the start of the list: the literal
h t t p, an optional s (tried first, as the regex engine does),
the literal : / /, and then a longest nonempty run of URL-class
characters.  Returns the matched text and the remaining input. -/
def matchUrlAt : Str → Option (Str × Str)
  | 'h' :: 't' :: 't' :: 'p' :: rest =>
    match rest with
    | 's' :: ':' :: '/' :: '/' :: r =>
      if (r.takeWhile isUrlChar).isEmpty then none
      else some ('h' :: 't' :: 't' :: 'p' :: 's' :: ':' :: '/' :: '/' ::
                   r.takeWhile isUrlChar,
                 r.dropWhile isUrlChar)
    | ':' :: '/' :: '/' :: r =>
      if (r.takeWhile isUrlChar).isEmpty then none
      else some ('h' :: 't' :: 't' :: 'p' :: ':' :: '/' :: '/' ::
                   r.takeWhile isUrlChar,
                 r.dropWhile isUrlChar)
    | _ => none
  | _ => none

/-- re.findall scanning: try a match at every position from left to
right, and continue after the end of each match, so matches never
overlap.  Fuel recursion (the fuel bounds the number of scanned
positions; the initial fuel, the input length, always suffices
because every step consumes at least one character). -/
def findURLsAux : Nat → Str → List Str
  | 0, _ => []
  | _ + 1, [] => []
  | fuel + 1, c :: rest =>
    match matchUrlAt (c :: rest) with
    | some (m, r) => m :: findURLsAux fuel r
    | none => findURLsAux fuel rest

/-- The sources list of agents.py line 169: re.findall of the URL
regex over the formatted result. -/
def findURLs (l : Str) : List Str :=
  findURLsAux l.length l

theorem startsWith_append (p t : Str) : startsWith p (p ++ t) = true := by
  induction p with
  | nil => rfl
  | cons c cs ih => simp [startsWith, ih]

theorem containsSub_of_startsWith {p l : Str} (h : startsWith p l = true) :
    containsSub p l = true := by
  cases l with
  | nil =>
    cases p with
    | nil => rfl
    | cons c cs => simp [startsWith] at h
  | cons c cs => simp [containsSub, h]

theorem containsSub_append_left {p y : Str} (x : Str)
    (h : containsSub p y = true) : containsSub p (x ++ y) = true := by
  induction x with
  | nil => simpa using h
  | cons c cs ih => simp [containsSub, ih]

theorem containsSub_nl3_emit (k : Nat) :
    containsSub ['\n', '\n', '\n'] (emitNewlines k) = false := by
  unfold emitNewlines
  split
  · decide
  · rename_i h
    have hk : k ≤ 2 := by omega
    interval_cases k <;> decide

theorem containsSub_nl3_emit_append (k : Nat) {c : Char} (hc : ¬ c = '\n')
    {t : Str} (ht : containsSub ['\n', '\n', '\n'] t = false) :
    containsSub ['\n', '\n', '\n'] (emitNewlines k ++ c :: t) = false := by
  unfold emitNewlines
  split
  · simp [containsSub, startsWith, Ne.symm hc, ht]
  · rename_i h
    have hk : k ≤ 2 := by omega
    interval_cases k <;>
      simp [List.replicate, containsSub, startsWith, Ne.symm hc, ht]

theorem collapseGo_nl3 :
    ∀ (l : Str) (k : Nat),
      containsSub ['\n', '\n', '\n'] (collapseGo k l) = false := by
  intro l
  induction l with
  | nil =>
    intro k
    simpa [collapseGo] using containsSub_nl3_emit k
  | cons c rest ih =>
    intro k
    by_cases hc : c = '\n'
    · subst hc
      simpa [collapseGo] using ih (k + 1)
    · simp only [collapseGo, if_neg hc]
      exact containsSub_nl3_emit_append k hc (ih 0)

theorem collapseGo_ne_nil :
    ∀ (l : Str) (k : Nat), 1 ≤ k ∨ l ≠ [] → collapseGo k l ≠ [] := by
  intro l
  induction l with
  | nil =>
    intro k h
    have hk : 1 ≤ k := h.resolve_right (by simp)
    unfold collapseGo emitNewlines
    split
    · simp
    · simp
      omega
  | cons c rest ih =>
    intro k _
    by_cases hc : c = '\n'
    · subst hc
      simpa [collapseGo] using ih (k + 1) (Or.inl (by omega))
    · simp [collapseGo, hc]

/-- C1: for a URL whose HTTP GET succeeds with a 2xx status,
visit_webpage returns the markdown conversion of the body, stripped,
with every run of three or more newlines collapsed to exactly two, so
no such run remains; and the result is non-empty whenever the
stripped conversion is (the conversion itself is the external
markdownify library, abstracted as the parameter md). -/
theorem visit_webpage_success_collapsed (md : Str → Str) (body : Str)
    (h : pyStrip (md body) ≠ []) :
    visit_webpage md (.success body) = collapseNewlines (pyStrip (md body)) ∧
    containsSub ['\n', '\n', '\n'] (visit_webpage md (.success body)) = false ∧
    visit_webpage md (.success body) ≠ [] := by
  refine ⟨rfl, ?_, ?_⟩
  · exact collapseGo_nl3 (pyStrip (md body)) 0
  · exact collapseGo_ne_nil (pyStrip (md body)) 0 (Or.inr h)

/-- Witness for C1 at a concrete conversion and body. -/
theorem visit_webpage_success_collapsed_witness :
    pyStrip ((fun _ => "hello\n\n\n\nworld".data) "x".data) ≠ [] ∧
    (visit_webpage (fun _ => "hello\n\n\n\nworld".data) (.success ("x".data)) =
        collapseNewlines
          (pyStrip ((fun _ => "hello\n\n\n\nworld".data) "x".data)) ∧
      containsSub ['\n', '\n', '\n']
          (visit_webpage (fun _ => "hello\n\n\n\nworld".data)
            (.success ("x".data))) = false ∧
      visit_webpage (fun _ => "hello\n\n\n\nworld".data)
          (.success ("x".data)) ≠ []) :=
  ⟨by decide, visit_webpage_success_collapsed _ _ (by decide)⟩

/-- C2: every failure of the fetch is caught and turned into a
returned string (visit_webpage is a total function into strings, for
every behaviour of the markdown conversion); a RequestException, and
in particular an unreachable URL, yields the error text holding the
substring Error fetching the webpage. -/
theorem visit_webpage_failure_returns (md : Str → Str) (msg : Str) :
    visit_webpage md (.requestError msg) = errFetch ++ msg ∧
    visit_webpage md (.otherError msg) = errUnexpected ++ msg ∧
    containsSub errFetchMsg (visit_webpage md (.requestError msg)) = true := by
  refine ⟨rfl, rfl, ?_⟩
  show containsSub errFetchMsg (errFetch ++ msg) = true
  have he : errFetch = errFetchMsg ++ ": ".data := by decide
  rw [he, List.append_assoc]
  exact containsSub_of_startsWith (startsWith_append _ _)

/-- C8 counterexample: when the exception text itself holds the words
Error fetching the webpage (str(e) is arbitrary text), the returned
string of the unexpected-error branch does contain that substring,
refuting the claimed absence; the branch is still recognizable by its
opening words. -/
theorem visit_webpage_error_overlap :
    containsSub errFetchMsg
        (visit_webpage (fun s => s) (.otherError errFetchMsg)) = true ∧
    startsWith errUnexpectedMsg
        (visit_webpage (fun s => s) (.otherError errFetchMsg)) = true := by
  decide

/-- C8 as amended: a non-RequestException failure yields a string
beginning with An unexpected error occurred:, and that string never
begins with Error fetching the webpage, so the two failure kinds are
distinguishable by their opening words (though not by substring
search, as the counterexample shows). -/
theorem visit_webpage_error_kinds (md : Str → Str) (msg : Str) :
    startsWith errUnexpectedMsg (visit_webpage md (.otherError msg)) = true ∧
    startsWith errFetchMsg (visit_webpage md (.otherError msg)) = false := by
  constructor
  · show startsWith errUnexpectedMsg (errUnexpected ++ msg) = true
    have he : errUnexpected = errUnexpectedMsg ++ " ".data := by decide
    rw [he, List.append_assoc]
    exact startsWith_append _ _
  · rfl

theorem startsWith_refl (l : Str) : startsWith l l = true := by
  simpa using startsWith_append l []

theorem containsSub_joinStrs_tail (sep a x : Str) :
    ∀ pre : List Str,
      containsSub (a ++ sep ++ x) (joinStrs sep (pre ++ [a, x])) = true := by
  intro pre
  induction pre with
  | nil =>
    have h : joinStrs sep ([] ++ [a, x]) = a ++ sep ++ x := rfl
    rw [h]
    exact containsSub_of_startsWith (startsWith_refl _)
  | cons p pre' ih =>
    have h : joinStrs sep ((p :: pre') ++ [a, x]) =
        p ++ sep ++ joinStrs sep (pre' ++ [a, x]) := by
      cases pre' <;> rfl
    rw [h]
    exact containsSub_append_left _ ih

theorem asStrings_dumpEntries (m : List (Str × PyVal)) :
    asStrings (dumpEntries m) = some (dumpStrs m) := by
  induction m with
  | nil => rfl
  | cons kv rest ih =>
    obtain ⟨k, v⟩ := kv
    simp [dumpEntries, dumpStrs, asStrings, ih]

/-- C3 counterexample: a mapping that carries answer with value X but
a non-string value under thoughts makes the Python join raise a
TypeError (embedded as none), so no output containing the Answer
section exists for that mapping. -/
theorem format_agent_response_answer_cx :
    dictGet [(keyAnswer, PyVal.pstr ("X".data)), (keyThoughts, PyVal.pint 5)]
        keyAnswer = some (PyVal.pstr ("X".data)) ∧
    format_agent_response
        (.pdict [(keyAnswer, PyVal.pstr ("X".data)),
                 (keyThoughts, PyVal.pint 5)]) = none :=
  ⟨rfl, rfl⟩

/-- C3 as amended: for a mapping carrying answer with value X whose
recognized-key values (thoughts, observations, answer) are all
strings, the output exists and contains the text of the Answer header
followed by X. -/
theorem format_agent_response_answer (m : List (Str × PyVal)) (X : Str)
    (hA : dictGet m keyAnswer = some (.pstr X))
    (hT : ∀ v, dictGet m keyThoughts = some v → ∃ s, v = PyVal.pstr s)
    (hO : ∀ v, dictGet m keyObservations = some v → ∃ s, v = PyVal.pstr s) :
    ∃ out, format_agent_response (.pdict m) = some out ∧
      containsSub (hdrAnswer ++ sepNlNl ++ X) out = true := by
  cases hdT : dictGet m keyThoughts with
  | none =>
    cases hdO : dictGet m keyObservations with
    | none =>
      refine ⟨joinStrs sepNlNl [hdrAnswer, X], ?_, ?_⟩
      · simp [format_agent_response, hdT, hdO, hA, optSection, pyJoin,
          asStrings]
      · exact containsSub_joinStrs_tail sepNlNl hdrAnswer X []
    | some w =>
      obtain ⟨o, rfl⟩ := hO w hdO
      refine ⟨joinStrs sepNlNl [hdrObservations, o, hdrAnswer, X], ?_, ?_⟩
      · simp [format_agent_response, hdT, hdO, hA, optSection, pyJoin,
          asStrings]
      · exact containsSub_joinStrs_tail sepNlNl hdrAnswer X
          [hdrObservations, o]
  | some v =>
    obtain ⟨t, rfl⟩ := hT v hdT
    cases hdO : dictGet m keyObservations with
    | none =>
      refine ⟨joinStrs sepNlNl [hdrThoughts, t, hdrAnswer, X], ?_, ?_⟩
      · simp [format_agent_response, hdT, hdO, hA, optSection, pyJoin,
          asStrings]
      · exact containsSub_joinStrs_tail sepNlNl hdrAnswer X [hdrThoughts, t]
    | some w =>
      obtain ⟨o, rfl⟩ := hO w hdO
      refine ⟨joinStrs sepNlNl
          [hdrThoughts, t, hdrObservations, o, hdrAnswer, X], ?_, ?_⟩
      · simp [format_agent_response, hdT, hdO, hA, optSection, pyJoin,
          asStrings]
      · exact containsSub_joinStrs_tail sepNlNl hdrAnswer X
          [hdrThoughts, t, hdrObservations, o]

/-- Witness for C3 as amended, at the one-entry mapping answer to X. -/
theorem format_agent_response_answer_witness :
    ∃ out,
      format_agent_response (.pdict [(keyAnswer, PyVal.pstr ("X".data))]) =
        some out ∧
      containsSub (hdrAnswer ++ sepNlNl ++ "X".data) out = true :=
  format_agent_response_answer _ _ rfl
    (fun _ h => Option.noConfusion h) (fun _ h => Option.noConfusion h)

/-- C4 counterexample: a mapping whose only recognized key, thoughts,
carries a non-string value makes the Python join raise a TypeError
(embedded as none) instead of emitting the headed sections. -/
theorem format_agent_response_sections_cx :
    dictGet [(keyThoughts, PyVal.pint 5)] keyThoughts =
      some (PyVal.pint 5) ∧
    format_agent_response (.pdict [(keyThoughts, PyVal.pint 5)]) = none :=
  ⟨rfl, rfl⟩

/-- C4 as amended: for a mapping whose recognized-key values, when
present, are strings: if at least one recognized key is present the
output is the fixed-order document Thought Process, Observations,
Answer, determined only by the looked-up values and so independent of
the mapping order; if none is present the output is the Results
document with one title-cased header and one stringified value per
entry, in mapping order. -/
theorem format_agent_response_sections (m : List (Str × PyVal))
    (topt oopt aopt : Option Str)
    (hT : dictGet m keyThoughts = topt.map PyVal.pstr)
    (hO : dictGet m keyObservations = oopt.map PyVal.pstr)
    (hA : dictGet m keyAnswer = aopt.map PyVal.pstr) :
    (¬ (topt = none ∧ oopt = none ∧ aopt = none) →
      format_agent_response (.pdict m) =
        some (joinStrs sepNlNl
          (secStrs hdrThoughts topt ++ secStrs hdrObservations oopt ++
            secStrs hdrAnswer aopt))) ∧
    ((topt = none ∧ oopt = none ∧ aopt = none) →
      format_agent_response (.pdict m) =
        some (joinStrs sepNlNl (hdrResults :: dumpStrs m))) := by
  constructor
  · intro hne
    cases topt with
    | none =>
      cases oopt with
      | none =>
        cases aopt with
        | none => exact absurd ⟨rfl, rfl, rfl⟩ hne
        | some aa =>
          simp [format_agent_response, hT, hO, hA, optSection, secStrs,
            pyJoin, asStrings]
      | some oo =>
        cases aopt <;>
          simp [format_agent_response, hT, hO, hA, optSection, secStrs,
            pyJoin, asStrings]
    | some tt =>
      cases oopt <;> cases aopt <;>
        simp [format_agent_response, hT, hO, hA, optSection, secStrs,
          pyJoin, asStrings]
  · rintro ⟨rfl, rfl, rfl⟩
    simp [format_agent_response, hT, hO, hA, optSection, pyJoin, asStrings,
      asStrings_dumpEntries]

/-- Witness for C4 as amended, at the one-entry mapping answer to Y. -/
theorem format_agent_response_sections_witness :
    format_agent_response (.pdict [(keyAnswer, PyVal.pstr ("Y".data))]) =
      some (joinStrs sepNlNl
        (secStrs hdrThoughts none ++ secStrs hdrObservations none ++
          secStrs hdrAnswer (some ("Y".data)))) :=
  (format_agent_response_sections [(keyAnswer, PyVal.pstr ("Y".data))]
    none none (some ("Y".data)) rfl rfl rfl).1 (by simp)

/-- C5: a non-mapping input is returned stringified, and in particular
the integer 5 yields the string 5. -/
theorem format_agent_response_nondict :
    (∀ v : PyVal, isDict v = false →
      format_agent_response v = some (pyStr v)) ∧
    format_agent_response (.pint 5) = some ("5".data) := by
  constructor
  · intro v hv
    cases v with
    | pstr s => rfl
    | pint n => rfl
    | pdict m => simp [isDict] at hv
  · rfl

/-- Witness for C5 at a concrete non-mapping value. -/
theorem format_agent_response_nondict_witness :
    isDict (.pstr ("a".data)) = false ∧
    format_agent_response (.pstr ("a".data)) = some (pyStr (.pstr ("a".data))) :=
  ⟨rfl, format_agent_response_nondict.1 _ rfl⟩

/-- C9: on the empty mapping the generic branch emits the Results
header and nothing else. -/
theorem format_agent_response_empty_dict :
    format_agent_response (.pdict []) = some hdrResults := rfl

theorem submitQuery_nodup {hist : List Str} (q : Str) (h : hist.Nodup) :
    (submitQuery hist q).Nodup := by
  unfold submitQuery
  split
  · exact h
  · rename_i hq
    rw [List.nodup_append]
    exact ⟨h, List.nodup_singleton q,
      fun a ha hb => hq (by simpa using (List.mem_singleton.mp hb) ▸ ha)⟩

theorem submitQuery_mem_of {hist : List Str} {a : Str} (q : Str)
    (h : a ∈ hist) : a ∈ submitQuery hist q := by
  unfold submitQuery
  split
  · exact h
  · exact List.mem_append_left _ h

theorem submitQuery_mem_self (hist : List Str) (q : Str) :
    q ∈ submitQuery hist q := by
  unfold submitQuery
  split
  · assumption
  · exact List.mem_append_right _ (List.mem_singleton.mpr rfl)

theorem foldl_submitQuery_nodup :
    ∀ (qs : List Str) (hist : List Str), hist.Nodup →
      (qs.foldl submitQuery hist).Nodup := by
  intro qs
  induction qs with
  | nil => exact fun hist h => h
  | cons x xs ih =>
    intro hist h
    exact ih _ (submitQuery_nodup x h)

theorem foldl_submitQuery_mem_of :
    ∀ (qs : List Str) (hist : List Str) (a : Str), a ∈ hist →
      a ∈ qs.foldl submitQuery hist := by
  intro qs
  induction qs with
  | nil => exact fun hist a h => h
  | cons x xs ih =>
    intro hist a h
    exact ih _ _ (submitQuery_mem_of x h)

theorem foldl_submitQuery_mem :
    ∀ (qs : List Str) (hist : List Str) (q : Str), q ∈ qs →
      q ∈ qs.foldl submitQuery hist := by
  intro qs
  induction qs with
  | nil => intro hist q h; cases h
  | cons x xs ih =>
    intro hist q h
    rcases List.mem_cons.mp h with rfl | hm
    · exact foldl_submitQuery_mem_of xs _ _ (submitQuery_mem_self hist q)
    · exact ih _ _ hm

theorem countOcc_eq_zero {q : Str} :
    ∀ {l : List Str}, q ∉ l → countOcc q l = 0 := by
  intro l
  induction l with
  | nil => intro _; rfl
  | cons x rest ih =>
    intro h
    have hx : ¬ x = q := fun e => h (e ▸ List.mem_cons_self x rest)
    simp [countOcc, hx, ih (fun hm => h (List.mem_cons_of_mem x hm))]

theorem countOcc_eq_one {q : Str} :
    ∀ {l : List Str}, l.Nodup → q ∈ l → countOcc q l = 1 := by
  intro l
  induction l with
  | nil => intro _ h; cases h
  | cons x rest ih =>
    intro hnd hm
    obtain ⟨hx, hrest⟩ := List.nodup_cons.mp hnd
    rcases List.mem_cons.mp hm with rfl | hqr
    · simp [countOcc, countOcc_eq_zero hx]
    · have hne : ¬ x = q := fun e => hx (e ▸ hqr)
      simp [countOcc, hne, ih hrest hqr]

/-- C6: after every sequence of submissions starting from the empty
session history, the history has no duplicate entries, and every
submitted query appears exactly once, however often it was
submitted. -/
theorem search_history_nodup (qs : List Str) :
    (runQueries qs).Nodup ∧
    ∀ q, q ∈ qs → countOcc q (runQueries qs) = 1 := by
  constructor
  · exact foldl_submitQuery_nodup qs [] List.nodup_nil
  · intro q hq
    exact countOcc_eq_one (foldl_submitQuery_nodup qs [] List.nodup_nil)
      (foldl_submitQuery_mem qs [] q hq)

/-- Witness for C6 at a sequence submitting the same query twice. -/
theorem search_history_nodup_witness :
    (runQueries ["a".data, "a".data, "b".data]).Nodup ∧
    countOcc ("a".data) (runQueries ["a".data, "a".data, "b".data]) = 1 :=
  ⟨(search_history_nodup ["a".data, "a".data, "b".data]).1,
   (search_history_nodup ["a".data, "a".data, "b".data]).2 _ (by decide)⟩

/-- C10: re-submitting a query already present leaves the history
unchanged, and with it the displayed last-five slice. -/
theorem search_history_resubmit (hist : List Str) (q : Str)
    (h : q ∈ hist) :
    submitQuery hist q = hist ∧
    lastFive (submitQuery hist q) = lastFive hist := by
  have e : submitQuery hist q = hist := by
    unfold submitQuery
    exact if_pos h
  exact ⟨e, by rw [e]⟩

/-- Witness for C10 at a one-entry history. -/
theorem search_history_resubmit_witness :
    submitQuery ["a".data] "a".data = ["a".data] ∧
    lastFive (submitQuery ["a".data] "a".data) = lastFive ["a".data] :=
  search_history_resubmit ["a".data] "a".data (by decide)

theorem takeWhile_append_all {p : Char → Bool} :
    ∀ (xs ys : Str), (∀ c ∈ xs, p c = true) →
      (xs ++ ys).takeWhile p = xs ++ ys.takeWhile p := by
  intro xs
  induction xs with
  | nil => intro ys _; rfl
  | cons x xr ih =>
    intro ys h
    have hx : p x = true := h x (List.mem_cons_self x xr)
    simp [List.takeWhile_cons, hx,
      ih ys (fun c hc => h c (List.mem_cons_of_mem x hc))]

theorem dropWhile_append_all {p : Char → Bool} :
    ∀ (xs ys : Str), (∀ c ∈ xs, p c = true) →
      (xs ++ ys).dropWhile p = ys.dropWhile p := by
  intro xs
  induction xs with
  | nil => intro ys _; rfl
  | cons x xr ih =>
    intro ys h
    have hx : p x = true := h x (List.mem_cons_self x xr)
    simp [List.dropWhile_cons, hx,
      ih ys (fun c hc => h c (List.mem_cons_of_mem x hc))]

theorem matchUrlAt_http (a tail : Str) (ha : ¬ a = [])
    (hall : ∀ c ∈ a, isUrlChar c = true)
    (htail : tail.takeWhile isUrlChar = []) :
    matchUrlAt ('h' :: 't' :: 't' :: 'p' :: ':' :: '/' :: '/' :: (a ++ tail)) =
      some ('h' :: 't' :: 't' :: 'p' :: ':' :: '/' :: '/' :: a, tail) := by
  have hdrop : tail.dropWhile isUrlChar = tail := by
    cases tail with
    | nil => rfl
    | cons c r =>
      by_cases hc : isUrlChar c
      · simp [List.takeWhile_cons, hc] at htail
      · simp [List.dropWhile_cons, hc]
  simp [matchUrlAt, takeWhile_append_all a tail hall,
    dropWhile_append_all a tail hall, htail, hdrop, ha]

theorem dropWhile_length_le {p : Char → Bool} :
    ∀ l : Str, (l.dropWhile p).length ≤ l.length := by
  intro l
  induction l with
  | nil => simp
  | cons c r ih =>
    by_cases hc : p c
    · simp only [List.dropWhile_cons, hc, if_true]
      exact Nat.le_succ_of_le ih
    · simp [List.dropWhile_cons, hc]

theorem matchUrlAt_shrinks :
    ∀ {l m r : Str}, matchUrlAt l = some (m, r) → r.length < l.length := by
  intro l m r h
  unfold matchUrlAt at h
  split at h
  · split at h
    · split at h
      · exact Option.noConfusion h
      · rename_i r0 hne
        rw [Option.some.injEq, Prod.mk.injEq] at h
        obtain ⟨h1, h2⟩ := h
        subst h2
        have hlen := dropWhile_length_le (p := isUrlChar) r0
        simp only [List.length_cons]
        omega
    · split at h
      · exact Option.noConfusion h
      · rename_i r0 hne
        rw [Option.some.injEq, Prod.mk.injEq] at h
        obtain ⟨h1, h2⟩ := h
        subst h2
        have hlen := dropWhile_length_le (p := isUrlChar) r0
        simp only [List.length_cons]
        omega
    · exact Option.noConfusion h
  · exact Option.noConfusion h

theorem findURLsAux_nil (fuel : Nat) : findURLsAux fuel [] = [] := by
  cases fuel <;> rfl

theorem findURLsAux_congr :
    ∀ (fuel₁ fuel₂ : Nat) (l : Str), l.length ≤ fuel₁ → l.length ≤ fuel₂ →
      findURLsAux fuel₁ l = findURLsAux fuel₂ l := by
  intro fuel₁
  induction fuel₁ with
  | zero =>
    intro fuel₂ l h1 _
    have hl : l = [] := List.eq_nil_of_length_eq_zero (Nat.le_zero.mp h1)
    subst hl
    rw [findURLsAux_nil, findURLsAux_nil]
  | succ f ih =>
    intro fuel₂ l h1 h2
    cases l with
    | nil => rw [findURLsAux_nil, findURLsAux_nil]
    | cons c rest =>
      cases fuel₂ with
      | zero => simp at h2
      | succ f2 =>
        have hrest1 : rest.length ≤ f := by
          simp only [List.length_cons] at h1; omega
        have hrest2 : rest.length ≤ f2 := by
          simp only [List.length_cons] at h2; omega
        cases hm : matchUrlAt (c :: rest) with
        | none =>
          simp only [findURLsAux, hm]
          exact ih f2 rest hrest1 hrest2
        | some pr =>
          obtain ⟨m, r⟩ := pr
          have hr : r.length < rest.length + 1 := by
            simpa using matchUrlAt_shrinks hm
          simp only [findURLsAux, hm]
          rw [ih f2 r (by omega) (by omega)]

theorem findURLs_cons_match {l m r : Str} (h : matchUrlAt l = some (m, r)) :
    findURLs l = m :: findURLs r := by
  cases l with
  | nil => exact Option.noConfusion h
  | cons c rest =>
    have hr : r.length ≤ rest.length := by
      have := matchUrlAt_shrinks h
      simp only [List.length_cons] at this
      omega
    show findURLsAux (rest.length + 1) (c :: rest) = m :: findURLs r
    simp only [findURLsAux, h]
    rw [findURLsAux_congr rest.length r.length r hr (Nat.le_refl _)]
    rfl

theorem findURLs_cons_skip {c : Char} {rest : Str}
    (h : matchUrlAt (c :: rest) = none) :
    findURLs (c :: rest) = findURLs rest := by
  show findURLsAux (rest.length + 1) (c :: rest) = findURLs rest
  simp only [findURLsAux, h]
  rfl

/-- C7 counterexample: a text holding two distinct URL occurrences
that are not separated by a character outside the regex class
(http followed by more URL-class text, here a second URL directly
after the first) produces a single greedy match, so the sources list
has length 1 and not 2. -/
theorem findURLs_adjacent_cx :
    containsSub ("http://a".data) ("http://ahttp://b".data) = true ∧
    containsSub ("http://b".data) ("http://ahttp://b".data) = true ∧
    findURLs ("http://ahttp://b".data) = ["http://ahttp://b".data] := by
  refine ⟨by decide, by decide, by decide⟩

/-- C7 as amended: when the two URLs are separated (here by a space,
a character outside the regex character class, which ends the first
greedy match and starts no match of its own), the extracted list has
exactly the two matched URL texts, in order of first appearance, with
no validation, deduplication or normalization: the result holds the
matched text verbatim, also when the two URLs are equal. -/
theorem findURLs_two_separated (a b : Str) (ha : ¬ a = []) (hb : ¬ b = [])
    (hall_a : ∀ c ∈ a, isUrlChar c = true)
    (hall_b : ∀ c ∈ b, isUrlChar c = true) :
    findURLs ("http://".data ++ (a ++ ' ' :: ("http://".data ++ b))) =
      ["http://".data ++ a, "http://".data ++ b] := by
  have hsp : (' ' :: ("http://".data ++ b)).takeWhile isUrlChar = [] := by
    simp [List.takeWhile_cons, show isUrlChar ' ' = false from rfl]
  have h1 : matchUrlAt ("http://".data ++ (a ++ ' ' :: ("http://".data ++ b)))
      = some ("http://".data ++ a, ' ' :: ("http://".data ++ b)) :=
    matchUrlAt_http a (' ' :: ("http://".data ++ b)) ha hall_a hsp
  have h2 : matchUrlAt (' ' :: ("http://".data ++ b)) = none := rfl
  have h3 : matchUrlAt ("http://".data ++ b) =
      some ("http://".data ++ b, []) := by
    have hb' := matchUrlAt_http b [] hb hall_b rfl
    simpa using hb'
  rw [findURLs_cons_match h1, findURLs_cons_skip h2, findURLs_cons_match h3]
  rfl

/-- Witness for C7 as amended, at two concrete one-letter URLs. -/
theorem findURLs_two_separated_witness :
    findURLs ("http://".data ++ ("x".data ++ ' ' ::
        ("http://".data ++ "y".data))) =
      ["http://".data ++ "x".data, "http://".data ++ "y".data] :=
  findURLs_two_separated ("x".data) ("y".data) (by decide) (by decide)
    (by decide) (by decide)
